import Mathlib

/-!
# Verification of the dich-truyen-tien-hiep core against its specification

Shallow embedding of the glossary store (`src/dich_truyen/translator/glossary.py`),
the term scorer (`src/dich_truyen/translator/term_scorer.py`), the progress store
(`src/dich_truyen/utils/progress.py`) and the relevant control flow of the
streaming pipeline (`src/dich_truyen/pipeline/streaming.py`), together with
theorems settling the specification claims about them.

Python strings are modelled as `List Char`; Python dicts are modelled either as
pointwise-updated functions (the glossary lookup index) or as association lists
with replace-on-insert (the scorer result dict), matching dict assignment
semantics.  Floating point arithmetic is modelled over `ℚ`, with `math.log`
kept as an explicit function parameter.
-/

namespace DichTruyen

/-! ## Glossary model (`translator/glossary.py`)

`GlossaryEntry` is the pydantic model with fields `chinese`, `vietnamese`,
`category`, `notes` (optional). -/

structure GlossaryEntry where
  chinese : List Char
  vietnamese : List Char
  category : List Char
  notes : Option (List Char)
deriving DecidableEq, Repr

/-- `Glossary` holds the backing list `entries` and the lookup dict `_index`
(modelled as a function from keys to optional entries). -/
structure Glossary where
  entries : List GlossaryEntry
  index : List Char → Option GlossaryEntry

/-- `_rebuild_index`: `self._index = {entry.chinese: entry for entry in entries}`.
A Python dict comprehension binds each key to the *last* entry carrying it. -/
def rebuildIndex (entries : List GlossaryEntry) : List Char → Option GlossaryEntry :=
  fun c => entries.reverse.find? (fun e => e.chinese == c)

/-- `Glossary.__init__`: store the entries and rebuild the index. -/
def mkGlossary (entries : List GlossaryEntry) : Glossary :=
  { entries := entries, index := rebuildIndex entries }

/-- Helper for `Glossary.add`: replace the entry at the first position whose
`chinese` equals `key` (Python: `next(i for i, e in enumerate(self.entries) if
e.chinese == entry.chinese)` followed by `self.entries[idx] = entry`). -/
def replaceFirstEntry (key : List Char) (e : GlossaryEntry) :
    List GlossaryEntry → List GlossaryEntry
  | [] => []
  | x :: rest =>
      if x.chinese = key then e :: rest else x :: replaceFirstEntry key e rest

/-- `Glossary.add`: upsert keyed on `entry.chinese`.  If the key is in the
index, the first entry with that key in the backing list is overwritten,
otherwise the entry is appended; in both cases the index is updated.
(When the key is in the index but in no list entry — a state the API never
produces — Python would raise `StopIteration`; the model leaves the list
unchanged there, and every theorem below only uses consistent states.) -/
def Glossary.add (g : Glossary) (e : GlossaryEntry) : Glossary :=
  if (g.index e.chinese).isSome then
    { entries := replaceFirstEntry e.chinese e g.entries,
      index := fun c => if c = e.chinese then some e else g.index c }
  else
    { entries := g.entries ++ [e],
      index := fun c => if c = e.chinese then some e else g.index c }

/-- `Glossary.remove`: if the key is in the index, drop every backing-list
entry with that key, delete the index key and return `true`; otherwise return
`false` with the glossary untouched. -/
def Glossary.remove (g : Glossary) (chinese : List Char) : Glossary × Bool :=
  if (g.index chinese).isSome then
    ({ entries := g.entries.filter (fun e => decide (e.chinese ≠ chinese)),
       index := fun c => if c = chinese then none else g.index c }, true)
  else (g, false)

/-- `Glossary.lookup`: `self._index.get(chinese)`. -/
def Glossary.lookup (g : Glossary) (chinese : List Char) : Option GlossaryEntry :=
  g.index chinese

/-- The consistency invariant between the lookup index and the backing list:
a key is in the index exactly when some backing entry carries it, and the
indexed entry is a backing entry with that key. -/
def Consistent (g : Glossary) : Prop :=
  ∀ t : List Char,
    ((∃ e ∈ g.entries, e.chinese = t) ↔ (g.index t).isSome = true) ∧
    (∀ e, g.index t = some e → e ∈ g.entries ∧ e.chinese = t)

/-- A mutation of the glossary through its public API. -/
inductive GlossaryOp where
  | add (e : GlossaryEntry)
  | remove (t : List Char)

def applyGlossaryOp (g : Glossary) : GlossaryOp → Glossary
  | .add e => g.add e
  | .remove t => (g.remove t).1

def applyGlossaryOps (g : Glossary) (ops : List GlossaryOp) : Glossary :=
  ops.foldl applyGlossaryOp g

lemma consistent_mkGlossary (entries : List GlossaryEntry) :
    Consistent (mkGlossary entries) := by
  intro t
  constructor
  · constructor
    · rintro ⟨e, he, rfl⟩
      simp only [mkGlossary, rebuildIndex, List.find?_isSome]
      exact ⟨e, List.mem_reverse.2 he, by simp⟩
    · intro h
      simp only [mkGlossary, rebuildIndex, List.find?_isSome] at h
      obtain ⟨e, he, hpe⟩ := h
      exact ⟨e, List.mem_reverse.1 he, by simpa using hpe⟩
  · intro e he
    simp only [mkGlossary, rebuildIndex] at he
    refine ⟨List.mem_reverse.1 (List.mem_of_find?_eq_some he), ?_⟩
    have := List.find?_some he
    simpa using this

lemma mem_replaceFirstEntry_of_ne {x : GlossaryEntry} {l : List GlossaryEntry}
    (key : List Char) (e : GlossaryEntry) (hx : x ∈ l) (hne : x.chinese ≠ key) :
    x ∈ replaceFirstEntry key e l := by
  induction l with
  | nil => simp at hx
  | cons y rest ih =>
    rcases List.mem_cons.1 hx with rfl | hx
    · simp only [replaceFirstEntry]
      split
      · exact absurd (by assumption) hne
      · exact List.mem_cons_self _ _
    · simp only [replaceFirstEntry]
      split
      · exact List.mem_cons_of_mem _ hx
      · exact List.mem_cons_of_mem _ (ih hx)

lemma mem_of_mem_replaceFirstEntry {x : GlossaryEntry} {l : List GlossaryEntry}
    {key : List Char} {e : GlossaryEntry} (hx : x ∈ replaceFirstEntry key e l) :
    x = e ∨ x ∈ l := by
  induction l with
  | nil => simp [replaceFirstEntry] at hx
  | cons y rest ih =>
    simp only [replaceFirstEntry] at hx
    split at hx
    · rcases List.mem_cons.1 hx with rfl | hx
      · exact Or.inl rfl
      · exact Or.inr (List.mem_cons_of_mem _ hx)
    · rcases List.mem_cons.1 hx with rfl | hx
      · exact Or.inr (List.mem_cons_self _ _)
      · rcases ih hx with h | h
        · exact Or.inl h
        · exact Or.inr (List.mem_cons_of_mem _ h)

lemma self_mem_replaceFirstEntry {l : List GlossaryEntry} {key : List Char}
    (e : GlossaryEntry) (hex : ∃ y ∈ l, y.chinese = key) :
    e ∈ replaceFirstEntry key e l := by
  induction l with
  | nil => simp at hex
  | cons y rest ih =>
    simp only [replaceFirstEntry]
    split
    · exact List.mem_cons_self _ _
    · rcases hex with ⟨z, hz, hzk⟩
      rcases List.mem_cons.1 hz with rfl | hz
      · exact absurd hzk (by assumption)
      · exact List.mem_cons_of_mem _ (ih ⟨z, hz, hzk⟩)

lemma add_index (g : Glossary) (e : GlossaryEntry) :
    (g.add e).index = fun c => if c = e.chinese then some e else g.index c := by
  by_cases h : (g.index e.chinese).isSome = true <;> simp [Glossary.add, h]

lemma add_entries_present {g : Glossary} {e : GlossaryEntry}
    (h : (g.index e.chinese).isSome = true) :
    (g.add e).entries = replaceFirstEntry e.chinese e g.entries := by
  simp [Glossary.add, h]

lemma add_entries_absent {g : Glossary} {e : GlossaryEntry}
    (h : ¬ (g.index e.chinese).isSome = true) :
    (g.add e).entries = g.entries ++ [e] := by
  simp [Glossary.add, h]

lemma consistent_add {g : Glossary} (hc : Consistent g) (e : GlossaryEntry) :
    Consistent (g.add e) := by
  intro t
  rw [add_index]
  by_cases hsome : (g.index e.chinese).isSome = true
  · -- key already present: first matching backing entry is replaced
    have hex : ∃ y ∈ g.entries, y.chinese = e.chinese := (hc e.chinese).1.2 hsome
    rw [add_entries_present hsome]
    constructor
    · constructor
      · rintro ⟨x, hx, rfl⟩
        by_cases ht : x.chinese = e.chinese
        · simp [ht]
        · rcases mem_of_mem_replaceFirstEntry hx with h | h
          · subst h; exact absurd rfl ht
          · have := (hc x.chinese).1.1 ⟨x, h, rfl⟩
            simpa [ht] using this
      · intro h
        by_cases ht : t = e.chinese
        · subst ht
          exact ⟨e, self_mem_replaceFirstEntry e hex, rfl⟩
        · simp only [if_neg ht] at h
          obtain ⟨x, hx, hxt⟩ := (hc t).1.2 h
          exact ⟨x, mem_replaceFirstEntry_of_ne _ _ hx (hxt ▸ ht), hxt⟩
    · intro x hx
      by_cases ht : t = e.chinese
      · subst ht
        obtain rfl : e = x := by simpa using hx
        exact ⟨self_mem_replaceFirstEntry _ hex, rfl⟩
      · simp only [if_neg ht] at hx
        obtain ⟨hmem, hkey⟩ := (hc t).2 x hx
        exact ⟨mem_replaceFirstEntry_of_ne _ _ hmem (hkey ▸ ht), hkey⟩
  · -- key absent: entry appended
    rw [add_entries_absent hsome]
    constructor
    · constructor
      · rintro ⟨x, hx, rfl⟩
        rcases List.mem_append.1 hx with h | h
        · by_cases ht : x.chinese = e.chinese
          · simp [ht]
          · have := (hc x.chinese).1.1 ⟨x, h, rfl⟩
            simpa [ht] using this
        · simp at h
          subst h
          simp
      · intro h
        by_cases ht : t = e.chinese
        · subst ht
          exact ⟨e, List.mem_append.2 (Or.inr (by simp)), rfl⟩
        · simp only [if_neg ht] at h
          obtain ⟨x, hx, hxt⟩ := (hc t).1.2 h
          exact ⟨x, List.mem_append.2 (Or.inl hx), hxt⟩
    · intro x hx
      by_cases ht : t = e.chinese
      · subst ht
        obtain rfl : e = x := by simpa using hx
        exact ⟨List.mem_append.2 (Or.inr (by simp)), rfl⟩
      · simp only [if_neg ht] at hx
        obtain ⟨hmem, hkey⟩ := (hc t).2 x hx
        exact ⟨List.mem_append.2 (Or.inl hmem), hkey⟩

lemma remove_present {g : Glossary} {key : List Char}
    (h : (g.index key).isSome = true) :
    g.remove key =
      ({ entries := g.entries.filter (fun e => decide (e.chinese ≠ key)),
         index := fun c => if c = key then none else g.index c }, true) := by
  simp [Glossary.remove, h]

lemma remove_absent {g : Glossary} {key : List Char}
    (h : ¬ (g.index key).isSome = true) :
    g.remove key = (g, false) := by
  simp [Glossary.remove, h]

lemma consistent_remove {g : Glossary} (hc : Consistent g) (key : List Char) :
    Consistent (g.remove key).1 := by
  by_cases hsome : (g.index key).isSome = true
  · rw [remove_present hsome]
    intro t
    constructor
    · constructor
      · rintro ⟨x, hx, rfl⟩
        rw [List.mem_filter] at hx
        obtain ⟨hmem, hne⟩ := hx
        have hne' : x.chinese ≠ key := of_decide_eq_true hne
        have := (hc x.chinese).1.1 ⟨x, hmem, rfl⟩
        simpa [hne'] using this
      · intro h
        by_cases ht : t = key
        · subst ht; simp at h
        · simp only [if_neg ht] at h
          obtain ⟨x, hx, hxt⟩ := (hc t).1.2 h
          refine ⟨x, List.mem_filter.2 ⟨hx, decide_eq_true (hxt ▸ ht)⟩, hxt⟩
    · intro x hx
      by_cases ht : t = key
      · subst ht; simp at hx
      · simp only [if_neg ht] at hx
        obtain ⟨hmem, hkey⟩ := (hc t).2 x hx
        exact ⟨List.mem_filter.2 ⟨hmem, decide_eq_true (hkey ▸ ht)⟩, hkey⟩
  · rw [remove_absent hsome]
    exact hc

lemma consistent_applyGlossaryOps {g : Glossary} (hc : Consistent g)
    (ops : List GlossaryOp) : Consistent (applyGlossaryOps g ops) := by
  induction ops generalizing g with
  | nil => exact hc
  | cons op rest ih =>
    cases op with
    | add e => exact ih (consistent_add hc e)
    | remove t => exact ih (consistent_remove hc t)

/-- C9: after every sequence of `add`/`remove` operations starting from a
constructed glossary, the lookup index agrees with the backing entry list:
`lookup t` is some entry iff the list holds an entry with `chinese = t`, and
the returned entry is such a list element. -/
theorem glossary_index_consistent (entries : List GlossaryEntry)
    (ops : List GlossaryOp) (t : List Char) :
    ((∃ e ∈ (applyGlossaryOps (mkGlossary entries) ops).entries, e.chinese = t) ↔
      ((applyGlossaryOps (mkGlossary entries) ops).lookup t).isSome = true) ∧
    (∀ e, (applyGlossaryOps (mkGlossary entries) ops).lookup t = some e →
      e ∈ (applyGlossaryOps (mkGlossary entries) ops).entries ∧ e.chinese = t) :=
  consistent_applyGlossaryOps (consistent_mkGlossary entries) ops t

/-! Witness material and further lemmas for the glossary claims. -/

def swordEntry : GlossaryEntry :=
  { chinese := ['剑'], vietnamese := ['k', 'i', 'ế', 'm'],
    category := ['g', 'e', 'n', 'e', 'r', 'a', 'l'], notes := none }

/-- Witness for C9 at a concrete glossary, operation sequence and key. -/
theorem glossary_index_consistent_witness :
    ((∃ e ∈ (applyGlossaryOps (mkGlossary []) [GlossaryOp.add swordEntry]).entries,
        e.chinese = ['剑']) ↔
      ((applyGlossaryOps (mkGlossary []) [GlossaryOp.add swordEntry]).lookup
          ['剑']).isSome = true) ∧
    (∀ e, (applyGlossaryOps (mkGlossary []) [GlossaryOp.add swordEntry]).lookup
          ['剑'] = some e →
      e ∈ (applyGlossaryOps (mkGlossary []) [GlossaryOp.add swordEntry]).entries ∧
      e.chinese = ['剑']) :=
  glossary_index_consistent [] [GlossaryOp.add swordEntry] ['剑']

lemma map_chinese_replaceFirstEntry {key : List Char} {e : GlossaryEntry}
    (h : e.chinese = key) (l : List GlossaryEntry) :
    (replaceFirstEntry key e l).map GlossaryEntry.chinese =
      l.map GlossaryEntry.chinese := by
  induction l with
  | nil => rfl
  | cons y rest ih =>
    simp only [replaceFirstEntry]
    split
    · simp_all
    · simp [ih]

lemma length_replaceFirstEntry (key : List Char) (e : GlossaryEntry)
    (l : List GlossaryEntry) :
    (replaceFirstEntry key e l).length = l.length := by
  induction l with
  | nil => rfl
  | cons y rest ih =>
    simp only [replaceFirstEntry]
    split <;> simp [ih]

lemma nodupKeys_add {g : Glossary} (hc : Consistent g)
    (hnd : (g.entries.map GlossaryEntry.chinese).Nodup) (e : GlossaryEntry) :
    ((g.add e).entries.map GlossaryEntry.chinese).Nodup := by
  by_cases hsome : (g.index e.chinese).isSome = true
  · rw [add_entries_present hsome, map_chinese_replaceFirstEntry rfl]
    exact hnd
  · rw [add_entries_absent hsome]
    have habs : ∀ x ∈ g.entries, x.chinese ≠ e.chinese := by
      intro x hx hxe
      exact hsome ((hc e.chinese).1.1 ⟨x, hx, hxe⟩)
    simp only [List.map_append, List.map_cons, List.map_nil]
    rw [List.nodup_append]
    refine ⟨hnd, List.nodup_singleton _, ?_⟩
    intro a ha hb
    simp only [List.mem_singleton] at hb
    subst hb
    obtain ⟨x, hx, hxa⟩ := List.mem_map.1 ha
    exact habs x hx hxa

lemma filter_key_eq_singleton {l : List GlossaryEntry} {x : GlossaryEntry}
    (hnd : (l.map GlossaryEntry.chinese).Nodup) (hx : x ∈ l) :
    l.filter (fun y => decide (y.chinese = x.chinese)) = [x] := by
  induction l with
  | nil => simp at hx
  | cons y rest ih =>
    simp only [List.map_cons, List.nodup_cons] at hnd
    obtain ⟨hny, hnrest⟩ := hnd
    rcases List.mem_cons.1 hx with rfl | hx
    · simp only [List.filter_cons, decide_eq_true rfl, if_pos]
      have : rest.filter (fun y => decide (y.chinese = x.chinese)) = [] := by
        rw [List.filter_eq_nil_iff]
        intro a ha
        simp only [decide_eq_true_eq]
        intro hax
        exact hny (hax ▸ List.mem_map_of_mem GlossaryEntry.chinese ha)
      simp [this]
    · have hyx : y.chinese ≠ x.chinese := by
        intro hyx
        exact hny (hyx ▸ List.mem_map_of_mem GlossaryEntry.chinese hx)
      simp only [List.filter_cons]
      rw [if_neg (by simpa using hyx)]
      exact ih hnrest hx

/-- C6 (amended): on a glossary whose backing entries have pairwise distinct
`chinese` keys, `add` is an upsert: after `add E1; add E2` with
`E1.chinese = E2.chinese`, exactly one entry carries that key and it equals E2,
the length does not grow on the second add, key uniqueness is preserved, and
lookup returns E2. -/
theorem glossary_add_upsert (g : Glossary) (e1 e2 : GlossaryEntry)
    (hc : Consistent g) (hnd : (g.entries.map GlossaryEntry.chinese).Nodup)
    (hkey : e1.chinese = e2.chinese) :
    ((g.add e1).add e2).entries.filter (fun x => decide (x.chinese = e2.chinese)) =
      [e2] ∧
    ((g.add e1).add e2).entries.length = (g.add e1).entries.length ∧
    (((g.add e1).add e2).entries.map GlossaryEntry.chinese).Nodup ∧
    ((g.add e1).add e2).lookup e2.chinese = some e2 := by
  have hc1 : Consistent (g.add e1) := consistent_add hc e1
  have hnd1 : ((g.add e1).entries.map GlossaryEntry.chinese).Nodup :=
    nodupKeys_add hc hnd e1
  have hsome : ((g.add e1).index e2.chinese).isSome = true := by
    rw [add_index]
    simp [hkey.symm]
  have hex : ∃ y ∈ (g.add e1).entries, y.chinese = e2.chinese :=
    (hc1 e2.chinese).1.2 hsome
  have hmem : e2 ∈ ((g.add e1).add e2).entries := by
    rw [add_entries_present hsome]
    exact self_mem_replaceFirstEntry _ hex
  refine ⟨?_, ?_, ?_, ?_⟩
  · exact filter_key_eq_singleton (nodupKeys_add hc1 hnd1 e2) hmem
  · rw [add_entries_present hsome, length_replaceFirstEntry]
  · exact nodupKeys_add hc1 hnd1 e2
  · rw [Glossary.lookup, add_index]
    simp

def entA1 : GlossaryEntry :=
  { chinese := ['a'], vietnamese := ['x'], category := ['g'], notes := none }

def entA2 : GlossaryEntry :=
  { chinese := ['a'], vietnamese := ['y'], category := ['g'], notes := none }

def entA3 : GlossaryEntry :=
  { chinese := ['a'], vietnamese := ['z'], category := ['g'], notes := none }

def entA4 : GlossaryEntry :=
  { chinese := ['a'], vietnamese := ['w'], category := ['g'], notes := none }

/-- Witness for C6 at concrete input: the empty glossary, then two adds with
the shared key 'a'. -/
theorem glossary_add_upsert_witness :
    (((mkGlossary []).add entA1).add entA2).entries.filter
        (fun x => decide (x.chinese = entA2.chinese)) = [entA2] :=
  (glossary_add_upsert (mkGlossary []) entA1 entA2
    (consistent_mkGlossary []) (by simp [mkGlossary]) rfl).1

/-- C6 counterexample: the claim quantifies over *any* glossary, but
`Glossary.__init__` (and `from_csv`, which appends rows without deduplication)
accepts backing lists with duplicate keys.  Starting from the glossary built
from two entries keyed 'a', `add E1; add E2` (same key) replaces only the
first occurrence, leaving two entries with that key rather than exactly one. -/
theorem glossary_add_upsert_counterexample :
    (((mkGlossary [entA1, entA2]).add entA3).add entA4).entries.filter
        (fun x => decide (x.chinese = entA4.chinese)) ≠ [entA4] ∧
    (((mkGlossary [entA1, entA2]).add entA3).add entA4).entries = [entA4, entA2] := by
  constructor
  · decide
  · decide

/-- C8: `remove` returns true exactly when the key is present (then all backing
entries with the key are gone), returns false leaving the glossary unchanged
when absent; after `add e`, `lookup` finds it, the first `remove` returns true
and the second returns false. -/
theorem glossary_remove_spec (g : Glossary) (t : List Char) (e : GlossaryEntry)
    (hc : Consistent g) :
    ((g.remove t).2 = true ↔ ∃ x ∈ g.entries, x.chinese = t) ∧
    ((g.remove t).2 = false → (g.remove t).1 = g) ∧
    ((g.remove t).2 = true → ∀ x ∈ (g.remove t).1.entries, x.chinese ≠ t) ∧
    ((g.add e).lookup e.chinese = some e) ∧
    (((g.add e).remove e.chinese).2 = true) ∧
    ((((g.add e).remove e.chinese).1.remove e.chinese).2 = false) := by
  have hadd : ((g.add e).index e.chinese).isSome = true := by
    rw [add_index]; simp
  refine ⟨?_, ?_, ?_, ?_, ?_, ?_⟩
  · by_cases hsome : (g.index t).isSome = true
    · rw [remove_present hsome]
      simpa using (hc t).1.2 hsome
    · rw [remove_absent hsome]
      constructor
      · intro h; simp at h
      · intro hex
        exact absurd ((hc t).1.1 hex) hsome
  · intro hfalse
    by_cases hsome : (g.index t).isSome = true
    · rw [remove_present hsome] at hfalse
      simp at hfalse
    · rw [remove_absent hsome]
  · intro htrue x hx
    by_cases hsome : (g.index t).isSome = true
    · rw [remove_present hsome] at hx
      simp only [List.mem_filter, decide_eq_true_eq] at hx
      exact hx.2
    · rw [remove_absent hsome] at htrue
      simp at htrue
  · rw [Glossary.lookup, add_index]; simp
  · rw [remove_present hadd]
  · rw [remove_present hadd]
    have : ((fun c => if c = e.chinese then none
        else (g.add e).index c) e.chinese : Option GlossaryEntry) = none := by simp
    rw [Glossary.remove]
    simp

/-- Witness for C8: the spec's scenario `add 剑→kiếm; lookup; remove; remove`. -/
theorem glossary_remove_spec_witness :
    (((mkGlossary []).add swordEntry).lookup swordEntry.chinese =
        some swordEntry) ∧
    ((((mkGlossary []).add swordEntry).remove swordEntry.chinese).2 = true) ∧
    (((((mkGlossary []).add swordEntry).remove
        swordEntry.chinese).1.remove swordEntry.chinese).2 = false) :=
  ⟨(glossary_remove_spec (mkGlossary []) ['剑'] swordEntry
      (consistent_mkGlossary [])).2.2.2.1,
   (glossary_remove_spec (mkGlossary []) ['剑'] swordEntry
      (consistent_mkGlossary [])).2.2.2.2.1,
   (glossary_remove_spec (mkGlossary []) ['剑'] swordEntry
      (consistent_mkGlossary [])).2.2.2.2.2⟩

/-! ## Term scorer model (`translator/term_scorer.py`)

Python's `term in text` substring test and `text.count(term)` are modelled
over `List Char`.  `math.log` is kept as an explicit parameter `log : ℚ → ℚ`
(the float value of `math.log(x)` is abstracted; every statement below is
about the algebraic shape of the score, which holds for any `log`). -/

/-- Python substring containment `needle in haystack`. -/
def containsSubstr (needle : List Char) : List Char → Bool
  | [] => needle.isEmpty
  | c :: rest => needle.isPrefixOf (c :: rest) || containsSubstr needle rest

/-- Recursion core for `countOccs`; `fuel` is an upper bound on the suffix
length (each step consumes at least one character, so `fuel := length` never
runs out). -/
def countOccsAux (needle : List Char) : Nat → List Char → Nat
  | _, [] => 0
  | 0, _ :: _ => 0
  | fuel + 1, c :: rest =>
    if needle.isPrefixOf (c :: rest) then
      1 + countOccsAux needle fuel (rest.drop (needle.length - 1))
    else countOccsAux needle fuel rest

/-- Python `haystack.count(needle)`: non-overlapping occurrences, scanning
left to right.  (`count` of the empty needle returns `len + 1`.) -/
def countOccs (needle : List Char) (haystack : List Char) : Nat :=
  if needle = [] then haystack.length + 1
  else countOccsAux needle haystack.length haystack

/-- `SimpleTermScorer`'s state after `__init__`/`fit`: tracked terms, document
count, document-frequency counter (`Counter` modelled as a function with
default 0), and the `_fitted` flag. -/
structure SimpleTermScorer where
  terms : List (List Char)
  doc_count : Nat
  doc_freq : List Char → Nat
  fitted : Bool

/-- `SimpleTermScorer.fit`: `doc_freq[term] += 1` once per document containing
`term`, per occurrence of `term` in the `terms` list. -/
def fitScorer (documents : List (List Char)) (terms : List (List Char)) :
    SimpleTermScorer :=
  { terms := terms,
    doc_count := documents.length,
    doc_freq := fun t =>
      terms.count t * (documents.filter (fun d => containsSubstr t d)).length,
    fitted := true }

/-- Python dict assignment `d[k] = v` on an association-list model: replace
the first binding of the key if present (dicts built through `dictInsert`
have at most one binding per key, matching Python), else append. -/
def dictInsert (d : List (List Char × ℚ)) (k : List Char) (v : ℚ) :
    List (List Char × ℚ) :=
  match d with
  | [] => [(k, v)]
  | p :: rest => if p.1 = k then (k, v) :: rest else p :: dictInsert rest k v

/-- Dict lookup on the association-list model. -/
def dictGet (d : List (List Char × ℚ)) (k : List Char) : Option ℚ :=
  (d.find? (fun p => p.1 == k)).map (fun p => p.2)

/-- `SimpleTermScorer.score_for_chunk`: for each tracked term present in the
chunk whose document frequency is positive, store
`tf * (log((doc_count+1)/(df+1)) + 1)` in the result dict. -/
def score_for_chunk (log : ℚ → ℚ) (s : SimpleTermScorer) (chunk : List Char) :
    List (List Char × ℚ) :=
  if s.fitted = false then []
  else
    s.terms.foldl
      (fun scores term =>
        if containsSubstr term chunk then
          if 0 < s.doc_freq term then
            dictInsert scores term
              ((countOccs term chunk : ℚ) *
                (log (((s.doc_count : ℚ) + 1) / ((s.doc_freq term : ℚ) + 1)) + 1))
          else scores
        else scores)
      []

/-- The spec's literal score formula for `scoreChunk`, read with ordinary
precedence: `occurrences_in_chunk * log((N+1)/(df+1)) + 1`. -/
def specChunkScore (log : ℚ → ℚ) (n df : Nat) (tf : ℚ) : ℚ :=
  tf * log (((n : ℚ) + 1) / ((df : ℚ) + 1)) + 1

lemma dictGet_dictInsert (d : List (List Char × ℚ)) (k : List Char) (v : ℚ)
    (k' : List Char) :
    dictGet (dictInsert d k v) k' =
      if k' = k then some v else dictGet d k' := by
  induction d with
  | nil =>
    simp only [dictInsert, dictGet, List.find?_cons, List.find?_nil]
    by_cases hk : k' = k
    · subst hk; simp
    · have : (k == k') = false := by simp [beq_iff_eq, Ne.symm hk]
      simp [this, hk]
  | cons p rest ih =>
    simp only [dictInsert]
    by_cases hpk : p.1 = k
    · rw [if_pos hpk]
      by_cases hk : k' = k
      · subst hk
        simp [dictGet, List.find?_cons]
      · simp only [dictGet, List.find?_cons]
        have h1 : ((k, v).1 == k') = false := by
          simp [beq_iff_eq, Ne.symm hk]
        have h2 : (p.1 == k') = false := by
          simp [beq_iff_eq, hpk, Ne.symm hk]
        rw [h1, h2]
        simp [dictGet, hk]
    · rw [if_neg hpk]
      by_cases hpk' : (p.1 == k') = true
      · simp only [dictGet, List.find?_cons, hpk']
        have hk : ¬ (k' = k) := by
          intro h
          exact hpk (h ▸ (beq_iff_eq.1 hpk'))
        simp [hk]
      · simp only [Bool.not_eq_true] at hpk'
        simp only [dictGet, List.find?_cons, hpk']
        have := ih
        simp only [dictGet] at this
        rw [this]

/-- The per-term score value stored by `score_for_chunk`. -/
def chunkScoreVal (log : ℚ → ℚ) (s : SimpleTermScorer) (chunk t : List Char) : ℚ :=
  (countOccs t chunk : ℚ) *
    (log (((s.doc_count : ℚ) + 1) / ((s.doc_freq t : ℚ) + 1)) + 1)

lemma dictGet_score_foldl (log : ℚ → ℚ) (s : SimpleTermScorer) (chunk : List Char)
    (terms' : List (List Char)) (init : List (List Char × ℚ)) (t : List Char) :
    dictGet (terms'.foldl
      (fun scores term =>
        if containsSubstr term chunk then
          if 0 < s.doc_freq term then
            dictInsert scores term (chunkScoreVal log s chunk term)
          else scores
        else scores) init) t =
      if t ∈ terms' ∧ containsSubstr t chunk = true ∧ 0 < s.doc_freq t
      then some (chunkScoreVal log s chunk t)
      else dictGet init t := by
  induction terms' generalizing init with
  | nil => simp
  | cons term rest ih =>
    rw [List.foldl_cons, ih]
    by_cases hrest : t ∈ rest ∧ containsSubstr t chunk = true ∧ 0 < s.doc_freq t
    · rw [if_pos hrest, if_pos ⟨List.mem_cons_of_mem _ hrest.1, hrest.2⟩]
    · rw [if_neg hrest]
      by_cases hteq : t = term
      · subst hteq
        by_cases hc : containsSubstr t chunk = true
        · by_cases hdf : 0 < s.doc_freq t
          · rw [if_pos hc, if_pos hdf, dictGet_dictInsert, if_pos rfl,
              if_pos ⟨List.mem_cons_self _ _, hc, hdf⟩]
          · rw [if_pos hc, if_neg hdf,
              if_neg (fun h => hdf h.2.2)]
        · rw [if_neg hc, if_neg (fun h => hc h.2.1)]
      · have hnotc : ¬ (t ∈ term :: rest ∧ containsSubstr t chunk = true ∧
            0 < s.doc_freq t) := by
          intro h
          rcases List.mem_cons.1 h.1 with h1 | h1
          · exact hteq h1
          · exact hrest ⟨h1, h.2⟩
        rw [if_neg hnotc]
        by_cases hc : containsSubstr term chunk = true
        · by_cases hdf : 0 < s.doc_freq term
          · rw [if_pos hc, if_pos hdf, dictGet_dictInsert, if_neg hteq]
          · rw [if_pos hc, if_neg hdf]
        · rw [if_neg hc]

/-- C5 (amended): the result dict of `score_for_chunk` on a fitted scorer has
an entry for `t` exactly when `t` is tracked, occurs in the chunk, *and* has
positive document frequency; the stored value is
`tf * (log((N+1)/(df+1)) + 1)`.  When the tracked terms are duplicate-free,
`df` is the number of fitted documents containing the term. -/
theorem score_for_chunk_spec (log : ℚ → ℚ) (documents terms : List (List Char))
    (chunk t : List Char) :
    (dictGet (score_for_chunk log (fitScorer documents terms) chunk) t =
      if t ∈ terms ∧ containsSubstr t chunk = true ∧
          0 < (fitScorer documents terms).doc_freq t
      then some ((countOccs t chunk : ℚ) *
        (log (((documents.length : ℚ) + 1) /
          (((fitScorer documents terms).doc_freq t : ℚ) + 1)) + 1))
      else none) ∧
    (t ∈ terms → terms.Nodup →
      (fitScorer documents terms).doc_freq t =
        (documents.filter (fun d => containsSubstr t d)).length) := by
  constructor
  · have h := dictGet_score_foldl log (fitScorer documents terms) chunk terms [] t
    simp only [dictGet, List.find?_nil, Option.map_none'] at h
    simpa [score_for_chunk, fitScorer, chunkScoreVal, dictGet] using h
  · intro hmem hnd
    simp only [fitScorer]
    have hone : terms.count t = 1 := by
      induction terms with
      | nil => simp at hmem
      | cons x rest ih =>
        rw [List.count_cons]
        rcases List.mem_cons.1 hmem with rfl | hmem'
        · have hz : rest.count t = 0 :=
            List.count_eq_zero.2 (List.nodup_cons.1 hnd).1
          simp [hz]
        · have hx : ¬ (t = x) := by
            rintro rfl
            exact (List.nodup_cons.1 hnd).1 hmem'
          have hbeq : (x == t) = false := by
            simp [beq_iff_eq]
            exact fun h => hx h.symm
          rw [hbeq, ih hmem' (List.nodup_cons.1 hnd).2]
          simp
    rw [hone, one_mul]

/-- Witness for C5 at a concrete fitted scorer and chunk. -/
theorem score_for_chunk_spec_witness :
    (dictGet (score_for_chunk (fun _ => 0)
        (fitScorer [['a'], ['b']] [['a']]) ['a']) ['a'] =
      if ['a'] ∈ [['a']] ∧ containsSubstr ['a'] ['a'] = true ∧
          0 < (fitScorer [['a'], ['b']] [['a']]).doc_freq ['a']
      then some ((countOccs ['a'] ['a'] : ℚ) *
        ((fun _ => (0 : ℚ)) ((([['a'], ['b']].length : ℚ) + 1) /
          (((fitScorer [['a'], ['b']] [['a']]).doc_freq ['a'] : ℚ) + 1)) + 1))
      else none) ∧
    (fitScorer [['a'], ['b']] [['a']]).doc_freq ['a'] =
      ([['a'], ['b']].filter (fun d => containsSubstr ['a'] d)).length :=
  ⟨(score_for_chunk_spec (fun _ => 0) [['a'], ['b']] [['a']] ['a'] ['a']).1,
   (score_for_chunk_spec (fun _ => 0) [['a'], ['b']] [['a']] ['a'] ['a']).2
     (by decide) (by decide)⟩

/-- C5 counterexample, two parts.  (a) Domain: with no fitted documents, the
tracked term 'a' occurs in the chunk "a" but has document frequency 0, so the
returned dict has *no* entry for it, against the claim that the domain is
exactly the tracked terms occurring in the chunk.  (b) Value: with one fitted
document "a" and chunk "aa", `tf = 2`, `df = 1`, `N = 1`; the code returns
`tf * (log(1) + 1) = 2` while the claim's formula
`tf * log((N+1)/(df+1)) + 1` evaluates to `1`.  The log argument is
`(1+1)/(1+1) = 1`, where `math.log` returns `0`, so the model instantiates
`log` with the constant-zero function, which agrees with `math.log` at every
evaluated argument. -/
theorem score_for_chunk_counterexample :
    (dictGet (score_for_chunk (fun _ => 0) (fitScorer [] [['a']]) ['a'])
        ['a'] = none) ∧
    (['a'] ∈ (fitScorer [] [['a']]).terms ∧ containsSubstr ['a'] ['a'] = true) ∧
    (dictGet (score_for_chunk (fun _ => 0) (fitScorer [['a']] [['a']])
        ['a', 'a']) ['a'] = some 2) ∧
    (specChunkScore (fun _ => 0) 1 1 2 = 1) ∧ ((2 : ℚ) ≠ 1) := by
  refine ⟨by decide, ⟨by decide, by decide⟩, ?_, ?_, by norm_num⟩
  · have h := (score_for_chunk_spec (fun _ => 0) [['a']] [['a']]
      ['a', 'a'] ['a']).1
    rw [h, if_pos (by decide)]
    norm_num
    decide
  · simp [specChunkScore]

/-! ## Progress store model (`utils/progress.py`)

`datetime.now()` is modelled by an explicit `now : Nat` parameter threaded to
the operations that read the clock. -/

/-- `ChapterStatus` enum. -/
inductive ChapterStatus where
  | pending
  | crawled
  | translated
  | formatted
  | exported
  | error
deriving DecidableEq, Repr

/-- `Chapter` pydantic model (status-related fields). -/
structure Chapter where
  index : Nat
  id : List Char
  title_cn : List Char
  title_vi : Option (List Char)
  url : List Char
  status : ChapterStatus
  crawled_at : Option Nat
  translated_at : Option Nat
  error_message : Option (List Char)
deriving DecidableEq, Repr

/-- `BookProgress` aggregate (the fields touched by the claims). -/
structure BookProgress where
  chapters : List Chapter
  updated_at : Nat
deriving DecidableEq, Repr

/-- `BookProgress.get_chapter_by_index`: first chapter with the given 1-based
index, scanning in list order. -/
def get_chapter_by_index (p : BookProgress) (index : Nat) : Option Chapter :=
  p.chapters.find? (fun c => decide (c.index = index))

/-- Mutate the first chapter with the given index in place (`get_chapter_by_index`
returns an object reference which Python then mutates). -/
def updateFirstChapter (index : Nat) (f : Chapter → Chapter) :
    List Chapter → List Chapter
  | [] => []
  | c :: rest =>
    if c.index = index then f c :: rest
    else c :: updateFirstChapter index f rest

/-- `BookProgress.update_chapter_status`: look the chapter up by index; when
found, set its status and error message, stamp `crawled_at`/`translated_at`
for the corresponding statuses, and bump the aggregate's `updated_at`; when no
chapter matches, do nothing at all. -/
def update_chapter_status (now : Nat) (p : BookProgress) (index : Nat)
    (status : ChapterStatus) (error : Option (List Char)) : BookProgress :=
  match get_chapter_by_index p index with
  | none => p
  | some _ =>
    { chapters := updateFirstChapter index
        (fun c =>
          { c with
            status := status,
            error_message := error,
            crawled_at :=
              if status = ChapterStatus.crawled then some now else c.crawled_at,
            translated_at :=
              if status = ChapterStatus.translated then some now
              else c.translated_at }) p.chapters,
      updated_at := now }

/-- C10: updating the status at an index matching no chapter is a silent
no-op: the aggregate (chapter list, statuses, timestamps, `updated_at`) is
returned unchanged and no error is signalled. -/
theorem update_chapter_status_missing_index_noop (now : Nat) (p : BookProgress)
    (index : Nat) (status : ChapterStatus) (error : Option (List Char))
    (h : ∀ c ∈ p.chapters, c.index ≠ index) :
    update_chapter_status now p index status error = p := by
  have hfind : get_chapter_by_index p index = none := by
    rw [get_chapter_by_index, List.find?_eq_none]
    intro c hc
    simpa using h c hc
  rw [update_chapter_status, hfind]

def sampleChapter : Chapter :=
  { index := 1, id := ['1'], title_cn := ['第'], title_vi := none,
    url := ['u'], status := ChapterStatus.pending, crawled_at := none,
    translated_at := none, error_message := none }

/-- Witness for C10: a one-chapter book updated at an index that matches
nothing. -/
theorem update_chapter_status_missing_index_noop_witness :
    update_chapter_status 7 { chapters := [sampleChapter], updated_at := 0 } 2
        ChapterStatus.crawled none =
      { chapters := [sampleChapter], updated_at := 0 } :=
  update_chapter_status_missing_index_noop 7
    { chapters := [sampleChapter], updated_at := 0 } 2
    ChapterStatus.crawled none (by decide)

/-! ## `BookProgress.save` write pattern (C1)

`save` executes `open(progress_file, "w")` — which truncates `book.json` in
place — and then `json.dump` streams the serialized aggregate into it.  The
file-system effect of one `save` is modelled as the operation list
`[truncate book.json, writeAll book.json serialized]`; a crash at step `k`
leaves the file system after only the first `k` operations.  (`json.dump`
writes incrementally, so real crash states also include proper prefixes of
the serialization; the state right after the truncate already decides the
claim.) -/

inductive FsOp where
  | truncate (path : String)
  | writeAll (path : String) (data : String)

/-- Apply one file-system operation to a file-system state (path ↦ contents). -/
def applyFsOp (fs : String → Option String) : FsOp → (String → Option String)
  | .truncate p => fun q => if q = p then some "" else fs q
  | .writeAll p d => fun q => if q = p then some d else fs q

def runFsOps (fs : String → Option String) (ops : List FsOp) :
    String → Option String :=
  ops.foldl applyFsOp fs

/-- The operations performed by `BookProgress.save` on `book.json`. -/
def saveOps (serialized : String) : List FsOp :=
  [FsOp.truncate "book.json", FsOp.writeAll "book.json" serialized]

/-- The file-system state when a crash interrupts `save` after `k` of its
operations. -/
def crashAfter (fs : String → Option String) (serialized : String) (k : Nat) :
    String → Option String :=
  runFsOps fs ((saveOps serialized).take k)

/-- C1 (code bug): `save` is not atomic.  If `book.json` previously held a
valid serialized state `old`, the crash state after `save`'s first operation
(the truncating `open(..., "w")`) holds the empty file — neither the previous
valid state nor the new one — so a subsequent `load` cannot return the
previous valid `BookProgress` (Python's `json.load` rejects empty input).
The spec's required write-to-temp-then-rename (or equivalent) is absent. -/
theorem save_crash_loses_previous_state (fs : String → Option String)
    (old serialized : String)
    (hne : old ≠ "") (hser : serialized ≠ "") :
    crashAfter fs serialized 1 "book.json" = some "" ∧
    crashAfter fs serialized 1 "book.json" ≠ some old ∧
    crashAfter fs serialized 1 "book.json" ≠ some serialized ∧
    ¬ (∀ k, crashAfter fs serialized k "book.json" = some old ∨
        crashAfter fs serialized k "book.json" = some serialized) := by
  have h1 : crashAfter fs serialized 1 "book.json" = some "" := by
    simp [crashAfter, runFsOps, saveOps, applyFsOp]
  refine ⟨h1, ?_, ?_, ?_⟩
  · rw [h1]
    intro h
    exact hne (Option.some_inj.1 h).symm
  · rw [h1]
    intro h
    exact hser (Option.some_inj.1 h).symm
  · intro hall
    rcases hall 1 with h | h
    · rw [h1] at h
      exact hne (Option.some_inj.1 h).symm
    · rw [h1] at h
      exact hser (Option.some_inj.1 h).symm

/-- Witness for C1's failing input: a file system whose `book.json` holds the
previously saved (non-empty) serialization. -/
theorem save_crash_loses_previous_state_witness :
    crashAfter (fun p => if p = "book.json" then some "old-state" else none)
        "new-state" 1 "book.json" = some "" ∧
    crashAfter (fun p => if p = "book.json" then some "old-state" else none)
        "new-state" 1 "book.json" ≠ some "old-state" :=
  ⟨(save_crash_loses_previous_state _ "old-state" "new-state"
      (by decide) (by decide)).1,
   (save_crash_loses_previous_state _ "old-state" "new-state"
      (by decide) (by decide)).2.1⟩

/-! ## Force-reset classification (`pipeline/streaming.py`, `run`, lines 175-193)

`hasRaw i` models `(book_dir / "raw").glob(f"\x7bi:04d\x7d_*.txt")` being
non-empty for chapter `i`. -/

/-- `reset_to = ChapterStatus.CRAWLED if url is None else ChapterStatus.PENDING`. -/
def resetTarget (hasUrl : Bool) : ChapterStatus :=
  if hasUrl then ChapterStatus.pending else ChapterStatus.crawled

/-- The `force` loop body of `run`: when targeting `crawled`, a chapter is set
to `crawled` only if a raw file exists (otherwise it is left as it is); when
targeting `pending`, every chapter is set to `pending`. -/
def applyForce (hasUrl : Bool) (hasRaw : Nat → Bool) (chapters : List Chapter) :
    List Chapter :=
  chapters.map (fun c =>
    if resetTarget hasUrl = ChapterStatus.crawled then
      if hasRaw c.index then { c with status := ChapterStatus.crawled } else c
    else { c with status := ChapterStatus.pending })

/-- The classification of the selected chapters after the optional force
reset: `(chapters', to_crawl, to_translate, already_done)`. -/
def classifyChapters (force hasUrl : Bool) (hasRaw : Nat → Bool)
    (chapters : List Chapter) :
    List Chapter × List Chapter × List Chapter × List Chapter :=
  let chs := if force then applyForce hasUrl hasRaw chapters else chapters
  (chs,
   chs.filter (fun c => decide (c.status = ChapterStatus.pending)),
   chs.filter (fun c => decide (c.status = ChapterStatus.crawled)),
   chs.filter (fun c => decide (c.status = ChapterStatus.translated)))

/-- C4 counterexample: with `force = true` and no source URL, a `translated`
chapter whose raw file is missing keeps status `translated` — it is *not*
reset to `pending` as the claim states — and is consequently classified as
already done (skipped), not as pending work. -/
theorem force_reset_counterexample :
    (applyForce false (fun _ => false)
        [{ sampleChapter with status := ChapterStatus.translated }] =
      [{ sampleChapter with status := ChapterStatus.translated }]) ∧
    (applyForce false (fun _ => false)
        [{ sampleChapter with status := ChapterStatus.translated }] ≠
      [{ sampleChapter with status := ChapterStatus.pending }]) ∧
    ((classifyChapters true false (fun _ => false)
        [{ sampleChapter with status := ChapterStatus.translated }]).2.1 = []) ∧
    ((classifyChapters true false (fun _ => false)
        [{ sampleChapter with status := ChapterStatus.translated }]).2.2.2 =
      [{ sampleChapter with status := ChapterStatus.translated }]) := by
  refine ⟨by decide, by decide, by decide, by decide⟩

/-- C4 (amended): with `force = true` and no source URL, every selected
chapter with an existing raw file is reset to `crawled`, and every selected
chapter lacking a raw file keeps its previous status unchanged (in
particular, chapters that were `pending` remain `pending`, and a `translated`
chapter with no raw file stays `translated`). -/
theorem force_reset_no_url (hasRaw : Nat → Bool) (chapters : List Chapter) :
    ((classifyChapters true false hasRaw chapters).1 =
      chapters.map (fun c =>
        if hasRaw c.index then { c with status := ChapterStatus.crawled }
        else c)) ∧
    (∀ c ∈ chapters, hasRaw c.index = true →
      { c with status := ChapterStatus.crawled } ∈
        (classifyChapters true false hasRaw chapters).1) ∧
    (∀ c ∈ chapters, hasRaw c.index = false →
      c ∈ (classifyChapters true false hasRaw chapters).1) := by
  have hmain : (classifyChapters true false hasRaw chapters).1 =
      chapters.map (fun c =>
        if hasRaw c.index then { c with status := ChapterStatus.crawled }
        else c) := by
    simp only [classifyChapters, applyForce, resetTarget, if_pos, if_neg]
    apply List.map_congr_left
    intro c _
    simp
  refine ⟨hmain, ?_, ?_⟩
  · intro c hc hraw
    rw [hmain]
    refine List.mem_map.2 ⟨c, hc, ?_⟩
    rw [if_pos hraw]
  · intro c hc hraw
    rw [hmain]
    refine List.mem_map.2 ⟨c, hc, ?_⟩
    rw [if_neg (by simp [hraw])]

def sampleChapter2 : Chapter := { sampleChapter with
  index := 2,
  status := ChapterStatus.translated }

/-- Witness for C4 at a concrete chapter list (one chapter with a raw file,
one without). -/
theorem force_reset_no_url_witness :
    (classifyChapters true false (fun i => decide (i = 1))
        [sampleChapter, sampleChapter2]).1 =
      [sampleChapter, sampleChapter2].map (fun c =>
        if (fun i => decide (i = 1)) c.index then
          { c with status := ChapterStatus.crawled } else c) :=
  (force_reset_no_url (fun i => decide (i = 1))
    [sampleChapter, sampleChapter2]).1

/-! ## Glossary bootstrap (`pipeline/streaming.py`, `_generate_glossary_if_needed`)

The method's observable state (sequential model of one worker running the
whole body; the double-checked lock re-check coincides with the entry check
when invocations are serialized): the `_glossary_generated` flag, the
`_auto_glossary` setting, the size of the shared glossary, and the raw
directory contents.  Per-invocation environment: whether the sampled file
reads produced any sample (`samplesOk`), whether anything inside the `try`
block raised (`genRaises`), and the glossary size produced on success. -/

structure GlossaryGenState where
  generated : Bool
  autoGlossary : Bool
  glossaryCount : Nat
  rawDirExists : Bool
  rawFileCount : Nat
deriving DecidableEq, Repr

inductive GenAction where
  | fastSkip
  | markedExisting
  | markedNoRawDir
  | markedNoFiles
  | attemptFailed
  | attemptGenerated
  | attemptNoSamples
deriving DecidableEq, Repr

/-- `_generate_glossary_if_needed`, as a state transformer returning the new
state and which exit path was taken. -/
def generateGlossaryIfNeeded (st : GlossaryGenState) (samplesOk : Bool)
    (genRaises : Bool) (genCount : Nat) : GlossaryGenState × GenAction :=
  if st.generated || !st.autoGlossary then (st, GenAction.fastSkip)
  else if 0 < st.glossaryCount then
    ({ st with generated := true }, GenAction.markedExisting)
  else if !st.rawDirExists then
    ({ st with generated := true }, GenAction.markedNoRawDir)
  else if st.rawFileCount = 0 then
    ({ st with generated := true }, GenAction.markedNoFiles)
  else if genRaises then (st, GenAction.attemptFailed)
  else if samplesOk then
    ({ st with generated := true, glossaryCount := genCount },
      GenAction.attemptGenerated)
  else ({ st with generated := true }, GenAction.attemptNoSamples)

/-- C3: the "generated" flag is set only on success.  If the generation
attempt raises, the state (and in particular the flag) is left untouched, so
a subsequent invocation reaches the generation attempt again instead of
returning through the fast path; if generation succeeds, the flag is set and
every later invocation returns immediately through the fast path without
touching the state. -/
theorem glossary_bootstrap_set_on_success_only (st : GlossaryGenState)
    (samplesOk : Bool) (genCount genCount' : Nat)
    (h1 : st.generated = false) (h2 : st.autoGlossary = true)
    (h3 : st.glossaryCount = 0) (h4 : st.rawDirExists = true)
    (h5 : st.rawFileCount ≠ 0) :
    ((generateGlossaryIfNeeded st samplesOk true genCount).1 = st) ∧
    ((generateGlossaryIfNeeded st samplesOk true genCount).1.generated = false) ∧
    ((generateGlossaryIfNeeded st samplesOk true genCount).2 =
      GenAction.attemptFailed) ∧
    ((generateGlossaryIfNeeded
        (generateGlossaryIfNeeded st samplesOk true genCount).1
        true false genCount').2 = GenAction.attemptGenerated) ∧
    ((generateGlossaryIfNeeded st true false genCount).1.generated = true) ∧
    (∀ st' samplesOk' genRaises' genCount'', st'.generated = true →
      generateGlossaryIfNeeded st' samplesOk' genRaises' genCount'' =
        (st', GenAction.fastSkip)) := by
  have hfail : generateGlossaryIfNeeded st samplesOk true genCount =
      (st, GenAction.attemptFailed) := by
    simp [generateGlossaryIfNeeded, h1, h2, h3, h4, h5]
  refine ⟨?_, ?_, ?_, ?_, ?_, ?_⟩
  · rw [hfail]
  · rw [hfail]; exact h1
  · rw [hfail]
  · rw [hfail]
    simp [generateGlossaryIfNeeded, h1, h2, h3, h4, h5]
  · simp [generateGlossaryIfNeeded, h1, h2, h3, h4, h5]
  · intro st' samplesOk' genRaises' genCount'' hgen
    simp [generateGlossaryIfNeeded, hgen]

/-- Witness for C3 at a concrete pre-bootstrap state. -/
theorem glossary_bootstrap_set_on_success_only_witness :
    ((generateGlossaryIfNeeded
        { generated := false, autoGlossary := true, glossaryCount := 0,
          rawDirExists := true, rawFileCount := 3 } true true 40).1.generated =
      false) ∧
    ((generateGlossaryIfNeeded
        (generateGlossaryIfNeeded
          { generated := false, autoGlossary := true, glossaryCount := 0,
            rawDirExists := true, rawFileCount := 3 } true true 40).1
        true false 40).2 = GenAction.attemptGenerated) ∧
    ((generateGlossaryIfNeeded
        { generated := false, autoGlossary := true, glossaryCount := 0,
          rawDirExists := true, rawFileCount := 3 } true false 40).1.generated =
      true) :=
  ⟨(glossary_bootstrap_set_on_success_only
      { generated := false, autoGlossary := true, glossaryCount := 0,
        rawDirExists := true, rawFileCount := 3 } true 40 40
      rfl rfl rfl rfl (by decide)).2.1,
   (glossary_bootstrap_set_on_success_only
      { generated := false, autoGlossary := true, glossaryCount := 0,
        rawDirExists := true, rawFileCount := 3 } true 40 40
      rfl rfl rfl rfl (by decide)).2.2.2.1,
   (glossary_bootstrap_set_on_success_only
      { generated := false, autoGlossary := true, glossaryCount := 0,
        rawDirExists := true, rawFileCount := 3 } true 40 40
      rfl rfl rfl rfl (by decide)).2.2.2.2.1⟩

/-! ## Crawl producer / translate consumers (`pipeline/streaming.py`, C2)

`_crawl_producer` loops over the chapters; each iteration either breaks out
(stop request / shutdown), crawls and enqueues the chapter, or catches the
chapter's exception and enqueues nothing; an exception escaping the loop
(e.g. from the crawler context manager) also ends the body early.  Whatever
happens, the `finally` block then enqueues `num_workers` `None` poison pills.

`_translate_consumer` is a loop that dequeues one item at a time and exits
exactly when it dequeues `None` (the shutdown event is modelled as unset);
each chapter item is processed with all exceptions caught inside the loop, so
processing outcomes do not affect the loop's control flow.  Since asyncio
interleaves coroutines at await points, the pool of consumers is modelled as
a transition system: a state holds the remaining queue, the number of
consumers still running, and the number that have terminated; any running
consumer may take the next queue item. -/

inductive CrawlEvent where
  | stop
  | fail
  | ok (index : Nat)

/-- The chapters enqueued by the producer's loop body: `stop` (break, or an
exception escaping the loop) truncates, `fail` (per-chapter exception caught)
skips, `ok` enqueues. -/
def crawlBodyEnqueued : List CrawlEvent → List Nat
  | [] => []
  | CrawlEvent.stop :: _ => []
  | CrawlEvent.fail :: rest => crawlBodyEnqueued rest
  | CrawlEvent.ok i :: rest => i :: crawlBodyEnqueued rest

/-- Everything the producer puts on the work queue: the crawled chapters,
then — from the `finally` block, on every exit path — exactly `numWorkers`
poison pills. -/
def producerQueue (events : List CrawlEvent) (numWorkers : Nat) :
    List (Option Nat) :=
  (crawlBodyEnqueued events).map some ++ List.replicate numWorkers none

structure ConsumersState where
  queue : List (Option Nat)
  running : Nat
  done : Nat
deriving DecidableEq, Repr

/-- One step of the consumer pool: a running consumer dequeues the head of
the queue; a chapter leaves it running, a poison pill terminates it. -/
inductive ConsumerStep : ConsumersState → ConsumersState → Prop
  | chapter (i : Nat) (q : List (Option Nat)) (r d : Nat) :
      ConsumerStep ⟨some i :: q, r + 1, d⟩ ⟨q, r + 1, d⟩
  | pill (q : List (Option Nat)) (r d : Nat) :
      ConsumerStep ⟨none :: q, r + 1, d⟩ ⟨q, r, d + 1⟩

/-- The state at the start of consumption: the producer's whole output queued,
`numWorkers` consumers running, none terminated. -/
def initialConsumers (events : List CrawlEvent) (numWorkers : Nat) :
    ConsumersState :=
  ⟨producerQueue events numWorkers, numWorkers, 0⟩

def pillCount (q : List (Option Nat)) : Nat := q.count none

lemma pillCount_producerQueue (events : List CrawlEvent) (numWorkers : Nat) :
    pillCount (producerQueue events numWorkers) = numWorkers := by
  rw [pillCount, producerQueue, List.count_append]
  have h1 : ((crawlBodyEnqueued events).map some).count (none : Option Nat) = 0 := by
    rw [List.count_eq_zero]
    intro h
    obtain ⟨i, _, hi⟩ := List.mem_map.1 h
    exact Option.some_ne_none i hi
  rw [h1, List.count_replicate]
  simp

lemma consumerStep_invariant {s s' : ConsumersState} (h : ConsumerStep s s')
    (hinv : pillCount s.queue = s.running) :
    pillCount s'.queue = s'.running := by
  cases h with
  | chapter i q r d =>
    simpa [pillCount] using hinv
  | pill q r d =>
    simp only [pillCount, List.count_cons] at hinv ⊢
    simpa using hinv

lemma consumerStep_total {s s' : ConsumersState} (h : ConsumerStep s s') :
    s'.running + s'.done = s.running + s.done := by
  cases h with
  | chapter i q r d => rfl
  | pill q r d => simp; omega

lemma consumerStep_queue_lt {s s' : ConsumersState} (h : ConsumerStep s s') :
    s'.queue.length < s.queue.length := by
  cases h <;> simp

lemma consumerStep_progress {s : ConsumersState}
    (hinv : pillCount s.queue = s.running) (hr : 0 < s.running) :
    ∃ s', ConsumerStep s s' := by
  obtain ⟨q, r, d⟩ := s
  simp only at hinv hr
  obtain ⟨r', rfl⟩ : ∃ r', r = r' + 1 := ⟨r - 1, by omega⟩
  cases q with
  | nil =>
    simp [pillCount] at hinv
  | cons x rest =>
    cases x with
    | none => exact ⟨_, ConsumerStep.pill rest r' d⟩
    | some i => exact ⟨_, ConsumerStep.chapter i rest r' d⟩

lemma reachable_invariant {events : List CrawlEvent} {numWorkers : Nat}
    {s : ConsumersState}
    (h : Relation.ReflTransGen ConsumerStep
      (initialConsumers events numWorkers) s) :
    pillCount s.queue = s.running ∧ s.running + s.done = numWorkers := by
  induction h with
  | refl =>
    exact ⟨pillCount_producerQueue events numWorkers, by simp [initialConsumers]⟩
  | tail _ hstep ih =>
    exact ⟨consumerStep_invariant hstep ih.1,
      (consumerStep_total hstep).trans ih.2⟩

/-- C2: (1) whatever the producer loop does — complete, fail per chapter,
break, or be cut short — its queue output carries exactly `numWorkers` poison
pills (enqueued by the `finally` block after the crawled chapters);
(2) every consumer-pool step shortens the queue, so every run terminates;
(3) in every reachable state the number of pills left equals the number of
consumers still running, so (4) a state with a running consumer always has a
next step (no consumer hangs on an empty queue), and (5) any reachable state
with no step left has all `numWorkers` consumers terminated — each consumer
dequeued exactly one pill and terminated exactly once. -/
theorem producer_pills_and_consumer_termination (events : List CrawlEvent)
    (numWorkers : Nat) :
    (pillCount (producerQueue events numWorkers) = numWorkers) ∧
    (∀ s s', ConsumerStep s s' → s'.queue.length < s.queue.length) ∧
    (∀ s, Relation.ReflTransGen ConsumerStep
        (initialConsumers events numWorkers) s →
      pillCount s.queue = s.running ∧ s.running + s.done = numWorkers) ∧
    (∀ s, Relation.ReflTransGen ConsumerStep
        (initialConsumers events numWorkers) s →
      0 < s.running → ∃ s', ConsumerStep s s') ∧
    (∀ s, Relation.ReflTransGen ConsumerStep
        (initialConsumers events numWorkers) s →
      (∀ s', ¬ ConsumerStep s s') → s.running = 0 ∧ s.done = numWorkers) := by
  refine ⟨pillCount_producerQueue events numWorkers,
    fun s s' h => consumerStep_queue_lt h,
    fun s h => reachable_invariant h, ?_, ?_⟩
  · intro s h hr
    exact consumerStep_progress (reachable_invariant h).1 hr
  · intro s h hstuck
    obtain ⟨hinv, htotal⟩ := reachable_invariant h
    by_cases hr : 0 < s.running
    · obtain ⟨s', hs'⟩ := consumerStep_progress hinv hr
      exact absurd hs' (hstuck s')
    · have hr0 : s.running = 0 := by omega
      exact ⟨hr0, by omega⟩

/-- Witness for C2: a concrete producer run (one crawled chapter, one failed
chapter, then a stop) with two workers; the initial state is reachable and
satisfies the invariant, and the terminal state after consuming the chapter
and both pills is stuck with both consumers terminated. -/
theorem producer_pills_and_consumer_termination_witness :
    (pillCount (producerQueue
      [CrawlEvent.ok 1, CrawlEvent.fail, CrawlEvent.stop] 2) = 2) ∧
    (pillCount (initialConsumers
        [CrawlEvent.ok 1, CrawlEvent.fail, CrawlEvent.stop] 2).queue =
      (initialConsumers
        [CrawlEvent.ok 1, CrawlEvent.fail, CrawlEvent.stop] 2).running) :=
  ⟨(producer_pills_and_consumer_termination
      [CrawlEvent.ok 1, CrawlEvent.fail, CrawlEvent.stop] 2).1,
   ((producer_pills_and_consumer_termination
      [CrawlEvent.ok 1, CrawlEvent.fail, CrawlEvent.stop] 2).2.2.1
      _ Relation.ReflTransGen.refl).1⟩

/-! ## CSV serialization (`Glossary.to_csv` / `Glossary.from_csv`, C7)

`to_csv` uses `csv.DictWriter` on a file opened with `newline=""`: the excel
dialect quotes a field iff it contains a delimiter, quote char, CR or LF,
doubles embedded quote chars, and terminates records with CRLF.  `None` is
written as the empty field.

`from_csv` uses `csv.DictReader` on a file opened *without* `newline=""`:
Python's universal-newline text mode first translates CRLF and lone CR to LF
throughout the stream (also inside quoted fields), and the reader then parses
LF-terminated records. -/

def isCsvSpecial (c : Char) : Bool :=
  c = ',' || c = '"' || c = '\r' || c = '\n'

def needsQuoting (f : List Char) : Bool := f.any isCsvSpecial

def escapeQuotes : List Char → List Char
  | [] => []
  | c :: rest =>
    if c = '"' then '"' :: '"' :: escapeQuotes rest
    else c :: escapeQuotes rest

/-- QUOTE_MINIMAL rendering of one field. -/
def writeField (f : List Char) : List Char :=
  if needsQuoting f then '"' :: (escapeQuotes f ++ ['"']) else f

/-- Comma-join the rendered fields of one record. -/
def joinComma : List (List Char) → List Char
  | [] => []
  | [f] => f
  | f :: g :: fs => f ++ ',' :: joinComma (g :: fs)

lemma joinComma_nil : joinComma [] = [] := rfl

lemma joinComma_single (f : List Char) : joinComma [f] = f := rfl

lemma joinComma_cons₂ (f g : List Char) (fs : List (List Char)) :
    joinComma (f :: g :: fs) = f ++ ',' :: joinComma (g :: fs) := rfl

/-- One CSV record with the excel dialect's CRLF terminator. -/
def writeRecord (fields : List (List Char)) : List Char :=
  joinComma (fields.map writeField) ++ ['\r', '\n']

def writeCsv (records : List (List (List Char))) : List Char :=
  (records.map writeRecord).flatten

def chineseKey : List Char := "chinese".toList

def vietnameseKey : List Char := "vietnamese".toList

def categoryKey : List Char := "category".toList

def notesKey : List Char := "notes".toList

def headerFields : List (List Char) :=
  [chineseKey, vietnameseKey, categoryKey, notesKey]

/-- The row `model_dump()` produces for one entry (`None` notes → empty). -/
def entryRecord (e : GlossaryEntry) : List (List Char) :=
  [e.chinese, e.vietnamese, e.category, e.notes.getD []]

/-- `Glossary.to_csv`: header row then one row per entry, in list order. -/
def to_csv (g : Glossary) : List Char :=
  writeCsv (headerFields :: g.entries.map entryRecord)

/-- Python universal-newline translation (text mode with `newline=None`):
CRLF and lone CR become LF. -/
def univNewlines : List Char → List Char
  | [] => []
  | [c] => if c = '\r' then ['\n'] else [c]
  | c :: c2 :: rest =>
    if c = '\r' then
      if c2 = '\n' then '\n' :: univNewlines rest
      else '\n' :: univNewlines (c2 :: rest)
    else c :: univNewlines (c2 :: rest)

lemma univNewlines_cons_of_ne {c : Char} (hc : c ≠ '\r') (t : List Char) :
    univNewlines (c :: t) = c :: univNewlines t := by
  cases t with
  | nil => simp [univNewlines, hc]
  | cons c2 rest => simp [univNewlines, hc]

lemma univNewlines_crlf (t : List Char) :
    univNewlines ('\r' :: '\n' :: t) = '\n' :: univNewlines t := by
  simp [univNewlines]

lemma univNewlines_cr_of_ne {t : List Char} (h : t.head? ≠ some '\n') :
    univNewlines ('\r' :: t) = '\n' :: univNewlines t := by
  cases t with
  | nil => simp [univNewlines]
  | cons c2 rest =>
    have hc2 : c2 ≠ '\n' := by
      intro hc
      exact h (by simp [hc])
    simp [univNewlines, hc2]

lemma univNewlines_append_of_noCR {xs : List Char}
    (h : ∀ c ∈ xs, c ≠ '\r') (ys : List Char) :
    univNewlines (xs ++ ys) = xs ++ univNewlines ys := by
  induction xs with
  | nil => rfl
  | cons c t ih =>
    rw [List.cons_append, univNewlines_cons_of_ne (h c (List.mem_cons_self _ _)),
      ih (fun d hd => h d (List.mem_cons_of_mem _ hd)), List.cons_append]

lemma univNewlines_of_noCR {xs : List Char} (h : ∀ c ∈ xs, c ≠ '\r') :
    univNewlines xs = xs := by
  have h0 : univNewlines ([] : List Char) = [] := rfl
  have h1 := univNewlines_append_of_noCR h []
  rw [List.append_nil, h0, List.append_nil] at h1
  exact h1

lemma escapeQuotes_cons_quote (f : List Char) :
    escapeQuotes ('"' :: f) = '"' :: '"' :: escapeQuotes f := rfl

lemma escapeQuotes_cons_of_ne {c : Char} (h : ¬ (c = '"')) (f : List Char) :
    escapeQuotes (c :: f) = c :: escapeQuotes f := by
  simp [escapeQuotes, h]

lemma head_escapeQuotes_append_ne_newline {c2 : Char} (hc2 : ¬ (c2 = '\n'))
    (f : List Char) (rest : List Char) :
    (escapeQuotes (c2 :: f) ++ '"' :: rest).head? ≠ some '\n' := by
  by_cases hq : c2 = '"'
  · subst hq
    rw [escapeQuotes_cons_quote]
    simp
  · rw [escapeQuotes_cons_of_ne hq]
    simp [hc2]

lemma univNewlines_escapeQuotes (f : List Char) (rest : List Char) :
    univNewlines (escapeQuotes f ++ '"' :: rest) =
      escapeQuotes (univNewlines f) ++ '"' :: univNewlines rest := by
  induction f with
  | nil =>
    show univNewlines ('"' :: rest) = '"' :: univNewlines rest
    exact univNewlines_cons_of_ne (by decide) rest
  | cons c f' ih =>
    by_cases hq : c = '"'
    · subst hq
      rw [escapeQuotes_cons_quote, List.cons_append, List.cons_append,
        univNewlines_cons_of_ne (by decide), univNewlines_cons_of_ne (by decide),
        ih, univNewlines_cons_of_ne (by decide), escapeQuotes_cons_quote,
        List.cons_append, List.cons_append]
    · by_cases hr : c = '\r'
      · subst hr
        rw [escapeQuotes_cons_of_ne hq, List.cons_append]
        cases f' with
        | nil =>
          show univNewlines ('\r' :: '"' :: rest) = _
          rw [univNewlines_cr_of_ne (by simp), univNewlines_cons_of_ne (by decide)]
          show _ = escapeQuotes ['\n'] ++ '"' :: univNewlines rest
          rw [escapeQuotes_cons_of_ne (by decide)]
          rfl
        | cons c2 f'' =>
          by_cases hn : c2 = '\n'
          · subst hn
            rw [escapeQuotes_cons_of_ne (by decide), List.cons_append,
              univNewlines_crlf]
            have ih' := ih
            rw [escapeQuotes_cons_of_ne (by decide), List.cons_append,
              univNewlines_cons_of_ne (by decide),
              univNewlines_cons_of_ne (by decide),
              escapeQuotes_cons_of_ne (by decide), List.cons_append] at ih'
            have key : univNewlines (escapeQuotes f'' ++ '"' :: rest) =
                escapeQuotes (univNewlines f'') ++ '"' :: univNewlines rest :=
              List.cons_injective ih'
            rw [key, univNewlines_crlf, escapeQuotes_cons_of_ne (by decide),
              List.cons_append]
          · rw [univNewlines_cr_of_ne (head_escapeQuotes_append_ne_newline hn f'' rest),
              ih, univNewlines_cr_of_ne (by simp [hn]),
              escapeQuotes_cons_of_ne (by decide), List.cons_append]
      · rw [escapeQuotes_cons_of_ne hq, List.cons_append,
          univNewlines_cons_of_ne hr, ih, univNewlines_cons_of_ne hr,
          escapeQuotes_cons_of_ne hq, List.cons_append]

lemma needsQuoting_univNewlines (f : List Char) :
    needsQuoting (univNewlines f) = needsQuoting f := by
  induction f with
  | nil => rfl
  | cons c t ih =>
    cases t with
    | nil =>
      by_cases hr : c = '\r'
      · subst hr
        simp [univNewlines, needsQuoting, isCsvSpecial]
      · simp [univNewlines, hr]
    | cons c2 rest =>
      by_cases hr : c = '\r'
      · subst hr
        by_cases hn : c2 = '\n'
        · subst hn
          rw [univNewlines_crlf]
          simp [needsQuoting, isCsvSpecial]
        · rw [univNewlines_cr_of_ne (by simp [hn])]
          simp [needsQuoting, isCsvSpecial]
      · rw [univNewlines_cons_of_ne hr]
        simp only [needsQuoting, List.any_cons] at ih ⊢
        rw [ih]

lemma noCR_of_not_needsQuoting {f : List Char} (h : needsQuoting f = false) :
    ∀ c ∈ f, c ≠ '\r' := by
  intro c hc
  rw [needsQuoting, List.any_eq_false] at h
  have := h c hc
  intro hcr
  subst hcr
  simp [isCsvSpecial] at this

lemma univNewlines_writeField (f t : List Char) :
    univNewlines (writeField f ++ t) =
      writeField (univNewlines f) ++ univNewlines t := by
  by_cases hq : needsQuoting f = true
  · have hq' : needsQuoting (univNewlines f) = true := by
      rw [needsQuoting_univNewlines]; exact hq
    rw [writeField, if_pos hq, writeField, if_pos hq']
    have hassoc : ('"' :: (escapeQuotes f ++ ['"'])) ++ t =
        '"' :: (escapeQuotes f ++ '"' :: t) := by simp
    rw [hassoc, univNewlines_cons_of_ne (by decide), univNewlines_escapeQuotes]
    simp
  · have hqf : needsQuoting f = false := by simpa using hq
    have hnoCR := noCR_of_not_needsQuoting hqf
    have hid : univNewlines f = f := univNewlines_of_noCR hnoCR
    have hq' : needsQuoting (univNewlines f) = false := by
      rw [needsQuoting_univNewlines]; exact hqf
    rw [writeField, if_neg (by simp [hqf]), writeField, if_neg (by simp [hq']),
      hid, univNewlines_append_of_noCR hnoCR]

lemma univNewlines_writeRecord (fields : List (List Char)) (t : List Char) :
    univNewlines (writeRecord fields ++ t) =
      joinComma ((fields.map univNewlines).map writeField) ++
        '\n' :: univNewlines t := by
  induction fields with
  | nil =>
    rw [writeRecord]
    simp only [List.map_nil, joinComma, List.nil_append]
    rw [show (['\r', '\n'] ++ t) = '\r' :: '\n' :: t from rfl, univNewlines_crlf]
  | cons f rest ih =>
    cases rest with
    | nil =>
      rw [writeRecord]
      simp only [List.map_cons, List.map_nil, joinComma]
      have hassoc : (writeField f ++ ['\r', '\n']) ++ t =
          writeField f ++ ('\r' :: '\n' :: t) := by simp
      rw [hassoc, univNewlines_writeField, univNewlines_crlf]
    | cons g fs =>
      rw [writeRecord]
      simp only [List.map_cons, joinComma]
      have hassoc : ((writeField f ++
            ',' :: joinComma (writeField g :: fs.map writeField)) ++ ['\r', '\n']) ++ t =
          writeField f ++ ',' :: (writeRecord (g :: fs) ++ t) := by
        rw [writeRecord]
        simp [joinComma]
      rw [hassoc, univNewlines_writeField, univNewlines_cons_of_ne (by decide), ih]
      simp [joinComma]

lemma univNewlines_writeCsv (records : List (List (List Char))) :
    univNewlines (writeCsv records) =
      (records.map (fun r =>
        joinComma ((r.map univNewlines).map writeField) ++ ['\n'])).flatten := by
  induction records with
  | nil => rfl
  | cons r rs ih =>
    have hsplit : writeCsv (r :: rs) = writeRecord r ++ writeCsv rs := by
      rw [writeCsv, List.map_cons, List.flatten_cons, writeCsv]
    rw [hsplit, univNewlines_writeRecord, ih, List.map_cons, List.flatten_cons]
    simp

/-! ### CSV reader model (`csv.reader` on a universal-newline stream)

After the universal-newline translation, the stream contains no CR, so record
terminators are single LF.  The reader is a recursive-descent parser: a field
either starts with a quote (quoted: doubled quotes unescape, the closing
quote ends the field) or runs to the next comma / LF.  A record is a
comma-separated field list ended by LF or end of input; a blank line is the
empty record `[]` (which `DictReader` then skips).  Record- and stream-level
recursion is fuelled (one unit per field / record, always available since
each consumes input) so that the definitions stay structural. -/

def parseQuoted : List Char → List Char × List Char
  | [] => ([], [])
  | c :: rest =>
    if c = '"' then
      match rest with
      | [] => ([], [])
      | c2 :: rest2 =>
        if c2 = '"' then
          ((('"' : Char) :: (parseQuoted rest2).1), (parseQuoted rest2).2)
        else ([], c2 :: rest2)
    else ((c :: (parseQuoted rest).1), (parseQuoted rest).2)

def parseUnquoted : List Char → List Char × List Char
  | [] => ([], [])
  | c :: rest =>
    if c = ',' || c = '\n' then ([], c :: rest)
    else ((c :: (parseUnquoted rest).1), (parseUnquoted rest).2)

def parseField : List Char → List Char × List Char
  | [] => ([], [])
  | c :: rest => if c = '"' then parseQuoted rest else parseUnquoted (c :: rest)

def parseRecordAux : Nat → List Char → List (List Char) × List Char
  | 0, l => ([(parseField l).1], [])
  | fuel + 1, l =>
    match (parseField l).2 with
    | ',' :: rest =>
      ((parseField l).1 :: (parseRecordAux fuel rest).1, (parseRecordAux fuel rest).2)
    | '\n' :: rest => ([(parseField l).1], rest)
    | _ => ([(parseField l).1], [])

def parseRecord (l : List Char) : List (List Char) × List Char :=
  parseRecordAux l.length l

def parseRecordsAux : Nat → List Char → List (List (List Char))
  | _, [] => []
  | 0, _ :: _ => []
  | fuel + 1, c :: rest =>
    if c = '\n' then [] :: parseRecordsAux fuel rest
    else
      (parseRecord (c :: rest)).1 ::
        parseRecordsAux fuel (parseRecord (c :: rest)).2

def parseRecords (l : List Char) : List (List (List Char)) :=
  parseRecordsAux l.length l

lemma parseQuoted_quote_quote (rest2 : List Char) :
    parseQuoted ('"' :: '"' :: rest2) =
      ('"' :: (parseQuoted rest2).1, (parseQuoted rest2).2) := rfl

lemma parseQuoted_quote_other {c2 : Char} (h : ¬ (c2 = '"')) (rest2 : List Char) :
    parseQuoted ('"' :: c2 :: rest2) = ([], c2 :: rest2) := by
  rw [parseQuoted.eq_def]
  simp [h]

lemma parseQuoted_other {c : Char} (h : ¬ (c = '"')) (rest : List Char) :
    parseQuoted (c :: rest) = (c :: (parseQuoted rest).1, (parseQuoted rest).2) := by
  rw [parseQuoted.eq_def]
  simp [h]

lemma parseQuoted_rest_le_aux : ∀ (n : Nat) (l : List Char), l.length ≤ n →
    (parseQuoted l).2.length ≤ l.length := by
  intro n
  induction n with
  | zero =>
    intro l hl
    have : l = [] := List.length_eq_zero.1 (Nat.le_zero.1 hl)
    subst this
    simp [parseQuoted]
  | succ n ih =>
    intro l hl
    cases l with
    | nil => simp [parseQuoted]
    | cons c rest =>
      by_cases hc : c = '"'
      · subst hc
        cases rest with
        | nil => simp [parseQuoted]
        | cons c2 rest2 =>
          by_cases hc2 : c2 = '"'
          · subst hc2
            rw [parseQuoted_quote_quote]
            have := ih rest2 (by simp at hl; omega)
            simp only [List.length_cons]
            omega
          · rw [parseQuoted_quote_other hc2]
            simp
      · rw [parseQuoted_other hc]
        have := ih rest (by simp at hl; omega)
        simp only [List.length_cons]
        omega

lemma parseQuoted_rest_le (l : List Char) :
    (parseQuoted l).2.length ≤ l.length :=
  parseQuoted_rest_le_aux l.length l le_rfl

lemma parseUnquoted_rest_le (l : List Char) :
    (parseUnquoted l).2.length ≤ l.length := by
  induction l with
  | nil => simp [parseUnquoted]
  | cons c rest ih =>
    rw [parseUnquoted]
    by_cases hc : (c = ',' || c = '\n') = true
    · rw [if_pos hc]
    · rw [if_neg hc]
      simp only [List.length_cons]
      omega

lemma parseField_rest_le (l : List Char) :
    (parseField l).2.length ≤ l.length := by
  cases l with
  | nil => simp [parseField]
  | cons c rest =>
    rw [parseField]
    by_cases hc : c = '"'
    · rw [if_pos hc]
      have := parseQuoted_rest_le rest
      simp only [List.length_cons]
      omega
    · rw [if_neg hc]
      exact parseUnquoted_rest_le (c :: rest)

lemma parseRecordAux_rest_le (fuel : Nat) (l : List Char) :
    (parseRecordAux fuel l).2.length ≤ l.length ∧
    (l ≠ [] → (parseRecordAux fuel l).2.length < l.length) := by
  induction fuel generalizing l with
  | zero =>
    constructor
    · simp [parseRecordAux]
    · intro hl
      have : 0 < l.length := List.length_pos.2 hl
      simpa [parseRecordAux] using this
  | succ fuel ih =>
    rw [parseRecordAux]
    have hfle := parseField_rest_le l
    split
    · rename_i rest heq
      have hrest : rest.length + 1 ≤ l.length := by
        rw [heq] at hfle
        simpa using hfle
      rcases ih rest with ⟨hle, _⟩
      dsimp only
      constructor
      · omega
      · intro _
        omega
    · rename_i rest heq
      have hrest : rest.length + 1 ≤ l.length := by
        rw [heq] at hfle
        simpa using hfle
      dsimp only
      constructor
      · omega
      · intro _
        omega
    · dsimp only
      constructor
      · simp
      · intro hl
        have : 0 < l.length := List.length_pos.2 hl
        simpa using this

lemma parseRecord_rest_lt {l : List Char} (hl : l ≠ []) :
    (parseRecord l).2.length < l.length :=
  (parseRecordAux_rest_le l.length l).2 hl

/-! ### The reader inverts the writer (on LF-terminated streams) -/

lemma parseUnquoted_inv {f : List Char} (hf : needsQuoting f = false)
    {rest : List Char}
    (hrest : rest = [] ∨ rest.head? = some ',' ∨ rest.head? = some '\n') :
    parseUnquoted (f ++ rest) = (f, rest) := by
  induction f with
  | nil =>
    rcases hrest with rfl | h | h
    · rfl
    · cases rest with
      | nil => simp at h
      | cons c t =>
        simp only [List.head?_cons, Option.some_inj] at h
        subst h
        simp [parseUnquoted]
    · cases rest with
      | nil => simp at h
      | cons c t =>
        simp only [List.head?_cons, Option.some_inj] at h
        subst h
        simp [parseUnquoted]
  | cons c f' ih =>
    have hc : isCsvSpecial c = false := by
      rw [needsQuoting, List.any_eq_false] at hf
      simpa using hf c (List.mem_cons_self _ _)
    have hf' : needsQuoting f' = false := by
      rw [needsQuoting, List.any_eq_false] at hf ⊢
      exact fun x hx => hf x (List.mem_cons_of_mem _ hx)
    have hcomma : ¬ (c = ',') := by
      intro h; subst h; simp [isCsvSpecial] at hc
    have hnl : ¬ (c = '\n') := by
      intro h; subst h; simp [isCsvSpecial] at hc
    rw [List.cons_append, parseUnquoted,
      if_neg (by simp [hcomma, hnl]), ih hf']

lemma parseQuoted_inv (f : List Char) {rest : List Char}
    (hrest : rest.head? ≠ some '"') :
    parseQuoted (escapeQuotes f ++ '"' :: rest) = (f, rest) := by
  induction f with
  | nil =>
    show parseQuoted ('"' :: rest) = ([], rest)
    cases rest with
    | nil => rfl
    | cons c2 t =>
      have hc2 : ¬ (c2 = '"') := by
        intro h
        exact hrest (by simp [h])
      rw [parseQuoted_quote_other hc2]
  | cons c f' ih =>
    by_cases hq : c = '"'
    · subst hq
      rw [escapeQuotes_cons_quote, List.cons_append, List.cons_append,
        parseQuoted_quote_quote, ih]
    · rw [escapeQuotes_cons_of_ne hq, List.cons_append, parseQuoted_other hq, ih]

lemma parseField_inv (f : List Char) {rest : List Char}
    (hrest : rest = [] ∨ rest.head? = some ',' ∨ rest.head? = some '\n') :
    parseField (writeField f ++ rest) = (f, rest) := by
  have hrest' : rest.head? ≠ some '"' := by
    rcases hrest with rfl | h | h
    · simp
    · simp [h]
    · simp [h]
  by_cases hq : needsQuoting f = true
  · rw [writeField, if_pos hq]
    have hassoc : ('"' :: (escapeQuotes f ++ ['"'])) ++ rest =
        '"' :: (escapeQuotes f ++ '"' :: rest) := by simp
    rw [hassoc, parseField, if_pos rfl]
    exact parseQuoted_inv f hrest'
  · have hqf : needsQuoting f = false := by simpa using hq
    rw [writeField, if_neg (by simp [hqf])]
    cases f with
    | nil =>
      rcases hrest with rfl | h | h
      · rfl
      · cases rest with
        | nil => simp at h
        | cons c t =>
          simp only [List.head?_cons, Option.some_inj] at h
          subst h
          rw [List.nil_append, parseField, if_neg (by decide)]
          exact parseUnquoted_inv (show needsQuoting [] = false from rfl)
            (Or.inr (Or.inl (by simp)))
      · cases rest with
        | nil => simp at h
        | cons c t =>
          simp only [List.head?_cons, Option.some_inj] at h
          subst h
          rw [List.nil_append, parseField, if_neg (by decide)]
          exact parseUnquoted_inv (show needsQuoting [] = false from rfl)
            (Or.inr (Or.inr (by simp)))
    | cons c f' =>
      have hc : isCsvSpecial c = false := by
        rw [needsQuoting, List.any_eq_false] at hqf
        simpa using hqf c (List.mem_cons_self _ _)
      have hcq : ¬ (c = '"') := by
        intro h; subst h; simp [isCsvSpecial] at hc
      rw [List.cons_append, parseField, if_neg hcq, ← List.cons_append]
      exact parseUnquoted_inv hqf hrest

lemma fields_le_joinComma_length (fields : List (List Char)) :
    fields.length ≤ (joinComma (fields.map writeField)).length + 1 := by
  induction fields with
  | nil => simp
  | cons f rest ih =>
    cases rest with
    | nil => simp
    | cons g fs =>
      rw [List.map_cons, List.map_cons, joinComma_cons₂]
      rw [List.map_cons] at ih
      simp only [List.length_cons, List.length_append] at ih ⊢
      omega

lemma parseRecordAux_inv : ∀ (fields : List (List Char)) (fuel : Nat)
    (rest : List Char), fields ≠ [] → fields.length ≤ fuel →
    parseRecordAux fuel (joinComma (fields.map writeField) ++ '\n' :: rest) =
      (fields, rest) := by
  intro fields
  induction fields with
  | nil => intro fuel rest h _; exact absurd rfl h
  | cons f rest' ih =>
    intro fuel tail _ hfuel
    obtain ⟨fuel', rfl⟩ : ∃ fuel'', fuel = fuel'' + 1 :=
      ⟨fuel - 1, by simp at hfuel; omega⟩
    cases rest' with
    | nil =>
      rw [List.map_cons, List.map_nil, joinComma_single, parseRecordAux,
        parseField_inv f (Or.inr (Or.inr (by simp)))]
      rfl
    | cons g fs =>
      rw [List.map_cons, List.map_cons, joinComma_cons₂]
      have hassoc : (writeField f ++
          ',' :: joinComma (writeField g :: fs.map writeField)) ++ '\n' :: tail =
          writeField f ++
            ',' :: (joinComma ((g :: fs).map writeField) ++ '\n' :: tail) := by
        simp
      rw [hassoc, parseRecordAux,
        parseField_inv f (Or.inr (Or.inl (by simp)))]
      have hrec := ih fuel' tail (by simp) (by simp at hfuel ⊢; omega)
      show (f :: (parseRecordAux fuel'
          (joinComma ((g :: fs).map writeField) ++ '\n' :: tail)).1,
        (parseRecordAux fuel'
          (joinComma ((g :: fs).map writeField) ++ '\n' :: tail)).2) =
        (f :: g :: fs, tail)
      rw [hrec]

lemma parseRecord_inv (fields : List (List Char)) (rest : List Char)
    (hne : fields ≠ []) :
    parseRecord (joinComma (fields.map writeField) ++ '\n' :: rest) =
      (fields, rest) := by
  rw [parseRecord]
  apply parseRecordAux_inv fields _ rest hne
  have h1 := fields_le_joinComma_length fields
  simp only [List.length_append, List.length_cons]
  omega

/-- One LF-terminated line per record. -/
def writeRowsLF (records : List (List (List Char))) : List Char :=
  (records.map (fun r => joinComma (r.map writeField) ++ ['\n'])).flatten

lemma head_record_line {r : List (List Char)} (h2 : 2 ≤ r.length)
    (tail : List Char) :
    ∃ c t, joinComma (r.map writeField) ++ '\n' :: tail = c :: t ∧
      ¬ (c = '\n') := by
  cases r with
  | nil => simp at h2
  | cons f0 r' =>
    cases r' with
    | nil => simp at h2
    | cons f1 fs =>
      rw [List.map_cons, List.map_cons, joinComma_cons₂]
      cases hwf : writeField f0 with
      | nil =>
        refine ⟨',', joinComma (writeField f1 :: fs.map writeField) ++ '\n' :: tail,
          by simp, by decide⟩
      | cons c0 w' =>
        refine ⟨c0, w' ++ ',' ::
            (joinComma (writeField f1 :: fs.map writeField) ++ '\n' :: tail),
          by simp, ?_⟩
        by_cases hq : needsQuoting f0 = true
        · rw [writeField, if_pos hq] at hwf
          have : c0 = '"' := (List.cons.injEq _ _ _ _ ▸ hwf.symm).1
          subst this
          decide
        · have hqf : needsQuoting f0 = false := by simpa using hq
          rw [writeField, if_neg (by simp [hqf])] at hwf
          subst hwf
          have hc : isCsvSpecial c0 = false := by
            rw [needsQuoting, List.any_eq_false] at hqf
            simpa using hqf c0 (List.mem_cons_self _ _)
          intro h
          subst h
          simp [isCsvSpecial] at hc

lemma records_le_writeRowsLF_length (records : List (List (List Char))) :
    records.length ≤ (writeRowsLF records).length := by
  induction records with
  | nil => simp [writeRowsLF]
  | cons r rs ih =>
    rw [writeRowsLF, List.map_cons, List.flatten_cons]
    rw [writeRowsLF] at ih
    simp only [List.length_cons, List.length_append]
    simp at ih ⊢
    omega

lemma parseRecordsAux_inv : ∀ (records : List (List (List Char))) (fuel : Nat),
    records.length ≤ fuel → (∀ r ∈ records, 2 ≤ r.length) →
    parseRecordsAux fuel (writeRowsLF records) = records := by
  intro records
  induction records with
  | nil =>
    intro fuel _ _
    rw [writeRowsLF]
    simp [parseRecordsAux]
  | cons r rs ih =>
    intro fuel hfuel hlen
    obtain ⟨fuel', rfl⟩ : ∃ fuel'', fuel = fuel'' + 1 :=
      ⟨fuel - 1, by simp at hfuel; omega⟩
    have hsplit : writeRowsLF (r :: rs) =
        joinComma (r.map writeField) ++ '\n' :: writeRowsLF rs := by
      rw [writeRowsLF, List.map_cons, List.flatten_cons, writeRowsLF]
      simp
    obtain ⟨c, t, hct, hcn⟩ :=
      head_record_line (hlen r (List.mem_cons_self _ _)) (writeRowsLF rs)
    rw [hsplit, hct, parseRecordsAux, if_neg hcn, ← hct,
      parseRecord_inv r (writeRowsLF rs)
        (by
          intro h
          have h2 := hlen r (List.mem_cons_self _ _)
          rw [h] at h2
          simp at h2)]
    dsimp only
    rw [ih fuel' (by simp at hfuel; omega)
      (fun x hx => hlen x (List.mem_cons_of_mem _ hx))]

lemma parseRecords_inv (records : List (List (List Char)))
    (hlen : ∀ r ∈ records, 2 ≤ r.length) :
    parseRecords (writeRowsLF records) = records := by
  rw [parseRecords]
  exact parseRecordsAux_inv records _ (records_le_writeRowsLF_length records) hlen

/-! ### `csv.DictReader` and `Glossary.from_csv` -/

/-- `dict(zip(fieldnames, row))` with `restval=None` padding for short rows
(extra row values land under the `restkey` and are ignored). -/
def rowDict : List (List Char) → List (List Char) →
    List (List Char × Option (List Char))
  | [], _ => []
  | h :: hs, [] => (h, none) :: rowDict hs []
  | h :: hs, v :: vs => (h, some v) :: rowDict hs vs

/-- Dict lookup; duplicate header names overwrite left to right, so the last
binding wins. -/
def dGetLast (d : List (List Char × Option (List Char))) (k : List Char) :
    Option (Option (List Char)) :=
  (d.reverse.find? (fun p => p.1 == k)).map (fun p => p.2)

/-- `row.get("notes") or None`: missing key, `None` value and the empty
string all collapse to `None`. -/
def notesOfRow (header row : List (List Char)) : Option (List Char) :=
  match dGetLast (rowDict header row) notesKey with
  | some (some n) => if n = [] then none else some n
  | _ => none

/-- One `GlossaryEntry` from one reader row: `row["chinese"]` and
`row["vietnamese"]` must be present strings (`KeyError`/validation failure
otherwise, modelled as `none`), `row.get("category", "general")` defaults
only when the key is absent, and notes go through `notesOfRow`. -/
def entryOfRow (header row : List (List Char)) : Option GlossaryEntry :=
  match dGetLast (rowDict header row) chineseKey with
  | some (some c) =>
    match dGetLast (rowDict header row) vietnameseKey with
    | some (some v) =>
      match dGetLast (rowDict header row) categoryKey with
      | some (some cat) =>
        some { chinese := c, vietnamese := v, category := cat,
               notes := notesOfRow header row }
      | some none => none
      | none =>
        some { chinese := c, vietnamese := v, category := "general".toList,
               notes := notesOfRow header row }
    | _ => none
  | _ => none

/-- `Glossary.from_csv`, returning the imported entry list (the Python code
wraps it in `Glossary(entries)`); `none` models an exception escaping the
row loop.  The first parsed record is the header; `DictReader` skips blank
rows. -/
def from_csv (content : List Char) : Option (List GlossaryEntry) :=
  match parseRecords (univNewlines content) with
  | [] => some []
  | header :: rows =>
    (rows.filter (fun r => !r.isEmpty)).mapM (entryOfRow header)

lemma entryOfRow_four (c v cat n : List Char) :
    entryOfRow headerFields [c, v, cat, n] =
      some { chinese := c, vietnamese := v, category := cat,
             notes := if n = [] then none else some n } := rfl

lemma mapM_map_eq_some {α β γ : Type} (l : List α) (f : α → β)
    (g : β → Option γ) (k : α → γ) (h : ∀ x ∈ l, g (f x) = some (k x)) :
    (l.map f).mapM g = some (l.map k) := by
  induction l with
  | nil => rfl
  | cons x rest ih =>
    rw [List.map_cons, List.mapM_cons, h x (List.mem_cons_self _ _),
      ih (fun y hy => h y (List.mem_cons_of_mem _ hy))]
    rfl

/-- The entry actually recovered by a CSV round trip: every text field goes
through the universal-newline translation, and empty notes collapse to
`None`. -/
def roundTripEntry (e : GlossaryEntry) : GlossaryEntry :=
  { chinese := univNewlines e.chinese,
    vietnamese := univNewlines e.vietnamese,
    category := univNewlines e.category,
    notes :=
      match e.notes with
      | none => none
      | some s => if univNewlines s = [] then none else some (univNewlines s) }

lemma entryOfRow_entryRecord (e : GlossaryEntry) :
    entryOfRow headerFields ((entryRecord e).map univNewlines) =
      some (roundTripEntry e) := by
  rw [entryRecord]
  rw [show ([e.chinese, e.vietnamese, e.category,
      e.notes.getD []].map univNewlines) =
    [univNewlines e.chinese, univNewlines e.vietnamese,
      univNewlines e.category, univNewlines (e.notes.getD [])] from rfl]
  rw [entryOfRow_four]
  have h0 : univNewlines ([] : List Char) = [] := rfl
  cases hn : e.notes with
  | none =>
    simp [roundTripEntry, hn, h0]
  | some s =>
    simp [roundTripEntry, hn]

/-- C7 (amended): the CSV round trip recovers the entry list exactly up to
two effects of the code's I/O conventions: every text field undergoes the
universal-newline translation (CRLF and lone CR become LF, because
`from_csv` reads in universal-newline text mode), and notes equal to the
empty string come back as `None` (`row.get("notes") or None`).  In
particular, for entries free of CR whose notes are not the empty string, the
round trip is exact, order included. -/
theorem glossary_csv_round_trip (entries : List GlossaryEntry) :
    (from_csv (to_csv (mkGlossary entries)) =
      some (entries.map roundTripEntry)) ∧
    ((∀ e ∈ entries, (∀ c ∈ e.chinese, c ≠ '\r') ∧
        (∀ c ∈ e.vietnamese, c ≠ '\r') ∧ (∀ c ∈ e.category, c ≠ '\r') ∧
        e.notes ≠ some [] ∧ (∀ c ∈ e.notes.getD [], c ≠ '\r')) →
      from_csv (to_csv (mkGlossary entries)) = some entries) := by
  have hmain : from_csv (to_csv (mkGlossary entries)) =
      some (entries.map roundTripEntry) := by
    have hto : to_csv (mkGlossary entries) =
        writeCsv (headerFields :: entries.map entryRecord) := rfl
    have huniv : univNewlines (to_csv (mkGlossary entries)) =
        writeRowsLF ((headerFields :: entries.map entryRecord).map
          (List.map univNewlines)) := by
      rw [hto, univNewlines_writeCsv, writeRowsLF, List.map_map]
      rfl
    have hparse : parseRecords (univNewlines (to_csv (mkGlossary entries))) =
        (headerFields :: entries.map entryRecord).map
          (List.map univNewlines) := by
      rw [huniv]
      apply parseRecords_inv
      intro r hr
      simp only [List.map_cons, List.mem_cons] at hr
      rcases hr with rfl | hr
      · simp [headerFields]
      · obtain ⟨row, hrow, rfl⟩ := List.mem_map.1 hr
        obtain ⟨e, _, rfl⟩ := List.mem_map.1 hrow
        simp [entryRecord]
    have hheader : headerFields.map univNewlines = headerFields := by decide
    have hparse2 : parseRecords (univNewlines (to_csv (mkGlossary entries))) =
        headerFields :: entries.map (fun e => (entryRecord e).map univNewlines) := by
      rw [hparse, List.map_cons, hheader, List.map_map]
      rfl
    have hfilter : (entries.map (fun e => (entryRecord e).map univNewlines)).filter
        (fun r => !r.isEmpty) =
        entries.map (fun e => (entryRecord e).map univNewlines) := by
      rw [List.filter_eq_self]
      intro r hr
      obtain ⟨e, _, rfl⟩ := List.mem_map.1 hr
      simp [entryRecord]
    rw [from_csv, hparse2]
    dsimp only
    rw [hfilter]
    exact mapM_map_eq_some entries _ _ roundTripEntry
      (fun e _ => entryOfRow_entryRecord e)
  refine ⟨hmain, ?_⟩
  intro hclean
  rw [hmain]
  have hkeep : ∀ e ∈ entries, roundTripEntry e = e := by
    intro e he
    obtain ⟨hc, hv, hcat, hne, hnotes⟩ := hclean e he
    obtain ⟨ec, ev, ecat, en⟩ := e
    simp only [roundTripEntry, GlossaryEntry.mk.injEq]
    refine ⟨univNewlines_of_noCR hc, univNewlines_of_noCR hv,
      univNewlines_of_noCR hcat, ?_⟩
    cases en with
    | none => rfl
    | some s =>
      have hs : univNewlines s = s :=
        univNewlines_of_noCR (by simpa using hnotes)
      have hse : ¬ (s = []) := by
        intro h
        exact hne (by rw [h])
      simp [hs, hse]
  rw [List.map_congr_left hkeep]
  simp

/-- Witness for C7 at a concrete glossary (CR-free fields, non-empty notes
on one entry, `None` notes on the other). -/
theorem glossary_csv_round_trip_witness :
    from_csv (to_csv (mkGlossary [swordEntry, entA1])) =
      some [swordEntry, entA1] :=
  (glossary_csv_round_trip [swordEntry, entA1]).2 (by decide)

def entryEmptyNotes : GlossaryEntry :=
  { chinese := ['a'], vietnamese := ['b'], category := ['g'],
    notes := some [] }

/-- C7 counterexample: an entry whose `notes` is the *empty string* is not
field-exact under the round trip — `to_csv` writes the empty field and
`from_csv` turns it into `None` (`row.get("notes") or None`), so the
recovered entry set differs from the original. -/
theorem glossary_csv_round_trip_counterexample :
    from_csv (to_csv (mkGlossary [entryEmptyNotes])) =
      some [{ chinese := ['a'], vietnamese := ['b'], category := ['g'],
              notes := none }] ∧
    from_csv (to_csv (mkGlossary [entryEmptyNotes])) ≠
      some [entryEmptyNotes] := by
  constructor
  · decide
  · decide

end DichTruyen
